import Mathlib

/-!
Shallow embedding of `SPSCQueue.h` (TSPSCQueue, an unbounded single-producer /
single-consumer linked-list queue) and proofs about it.

Modelling conventions:
* The C++ heap of `Node` objects is modelled as an arena `List (Node α)`;
  a `Node*` pointer is an `Option Nat` (`none` = `nullptr`, `some i` = the
  address of the node stored at arena index `i`).  Nodes are only ever
  allocated (`new Node`) by appending to the arena, so arena indices are
  stable addresses; `delete` happens only in the destructor, which we model
  as computing the list of addresses it releases.
* Reading through a null pointer is undefined behaviour in C++; the model
  returns a junk dummy node there.  The verified invariant shows such reads
  never happen in reachable states.
* Operations are modelled at call granularity: an execution is an arbitrary
  interleaving of whole `Enqueue` / `Dequeue` calls, which is the
  single-producer/single-consumer discipline with each call atomic.
-/

set_option linter.unusedVariables false
set_option linter.unusedSectionVars false

/-- One linked-list cell of `TSPSCQueue<T>`: `std::atomic<Node*> m_next` and a
payload `T m_data`. -/
structure Node (α : Type) where
  m_next : Option Nat
  m_data : α
  deriving Repr, DecidableEq

/-- The queue state: the node arena (the model of the heap) plus the four
cursor fields of `TSPSCQueue<T>`: shared `m_tail`, and producer-private
`m_head`, `m_first`, `m_tailCopy`. -/
structure TSPSCQueue (α : Type) where
  nodes : List (Node α)
  m_tail : Option Nat
  m_head : Option Nat
  m_first : Option Nat
  m_tailCopy : Option Nat
  deriving Repr, DecidableEq

namespace TSPSCQueue

variable {α : Type} [Inhabited α]

/-- The junk node produced by dereferencing an invalid pointer (models C++
undefined behaviour; never reached from verified states). -/
def dummyNode : Node α := { m_next := none, m_data := default }

/-- Read the node stored at arena index `i`. -/
def nodeAt (ns : List (Node α)) (i : Nat) : Node α :=
  (ns[i]?).getD dummyNode

/-- Dereference a `Node*`: `none` (null) yields the junk node. -/
def derefNode (ns : List (Node α)) (p : Option Nat) : Node α :=
  match p with
  | some i => nodeAt ns i
  | none => dummyNode

/-- `p->m_next = v`: store `v` into the next-pointer of the node `p` points
at (no-op on a null pointer, which is unreachable under the invariant). -/
def storeNext (ns : List (Node α)) (p : Option Nat) (v : Option Nat) :
    List (Node α) :=
  match p with
  | some i => ns.set i { nodeAt ns i with m_next := v }
  | none => ns

/-- `p->m_data = v`: store `v` into the payload of the node `p` points at. -/
def storeData (ns : List (Node α)) (p : Option Nat) (v : α) : List (Node α) :=
  match p with
  | some i => ns.set i { nodeAt ns i with m_data := v }
  | none => ns

/-- `TSPSCQueue<T>::GetNodeFromCache`, producer side.  The C++ `for(;;)` loop
body always ends in `break`, so the function is straight-line: try
`m_first != m_tailCopy`, otherwise reload `m_tailCopy` from `m_tail` (the one
load of the shared atomic) and retry the comparison once, otherwise return
null. -/
def GetNodeFromCache (q : TSPSCQueue α) : Option Nat × TSPSCQueue α :=
  if q.m_first ≠ q.m_tailCopy then
    (q.m_first, { q with m_first := (derefNode q.nodes q.m_first).m_next })
  else
    let q1 := { q with m_tailCopy := q.m_tail }
    if q1.m_first ≠ q1.m_tailCopy then
      (q1.m_first, { q1 with m_first := (derefNode q1.nodes q1.m_first).m_next })
    else
      (none, q1)

/-- Control flow of one iteration of a `for(;;)` body: `brk r` models
`break` leaving result `r`; `next` models falling through to another
iteration. -/
inductive Flow (β : Type) where
  | brk : β → Flow β
  | next : Flow β

/-- One iteration of the `for(;;)` body of `GetNodeFromCache`, instrumented:
the second component counts the loads of the shared `m_tail` performed by
this iteration.  Every path of the body ends in `break`. -/
def gncBody (q : TSPSCQueue α) : Flow (Option Nat × TSPSCQueue α) × Nat :=
  if q.m_first ≠ q.m_tailCopy then
    (Flow.brk (q.m_first, { q with m_first := (derefNode q.nodes q.m_first).m_next }), 0)
  else
    let q1 := { q with m_tailCopy := q.m_tail }
    if q1.m_first ≠ q1.m_tailCopy then
      (Flow.brk (q1.m_first, { q1 with m_first := (derefNode q1.nodes q1.m_first).m_next }), 1)
    else
      (Flow.brk (none, q1), 1)

/-- The `for(;;)` loop of `GetNodeFromCache`, run with explicit fuel:
iterate the body until it breaks (fuel exhaustion returns `none`, which the
theorems show never happens for any positive fuel). -/
def gncLoop : Nat → TSPSCQueue α → Option (Option Nat × TSPSCQueue α)
  | 0, _ => none
  | fuel + 1, q =>
    match (gncBody q).1 with
    | Flow.brk r => some r
    | Flow.next => gncLoop fuel q

/-- `TSPSCQueue<T>::TSPSCQueue()`: allocate one dummy node (default payload,
null next-pointer) and point `m_tail`, `m_head`, `m_first`, `m_tailCopy` at
it. -/
def construct : TSPSCQueue α :=
  { nodes := [{ m_next := none, m_data := default }]
    m_tail := some 0
    m_head := some 0
    m_first := some 0
    m_tailCopy := some 0 }

/-- The node-release walk of `TSPSCQueue<T>::~TSPSCQueue()`:
`cur = m_first; do { next = cur->m_next; delete cur; cur = next; } while (cur)`.
Returns the addresses in deletion order.  The fuel argument only bounds the
walk so the model is total; the invariant shows `nodes.length` fuel always
reaches the null next-pointer first. -/
def freeFrom (ns : List (Node α)) : Nat → Nat → List Nat
  | 0, cur => [cur]
  | fuel + 1, cur =>
    cur ::
      (match (nodeAt ns cur).m_next with
      | none => []
      | some nxt => freeFrom ns fuel nxt)

/-- `TSPSCQueue<T>::~TSPSCQueue()`: the list of node addresses the destructor
releases, starting from `m_first` (a null `m_first` would be a null
dereference in C++; it never occurs in reachable states). -/
def destruct (q : TSPSCQueue α) : List Nat :=
  match q.m_first with
  | some f => freeFrom q.nodes q.nodes.length f
  | none => []

/-- `TSPSCQueue<T>::Enqueue(const T&)` (the `Enqueue(T&&)` overload performs
the same state change; the copy/move mechanics are modelled separately by
`enqueueLvalueTransfer` / `enqueueRvalueTransfer`).  Take a node from the
cache if available (clear its next-pointer, overwrite its payload), else
allocate a fresh node; then publish it by storing it into `m_head->m_next`
and advancing `m_head`. -/
def Enqueue (q : TSPSCQueue α) (data : α) : TSPSCQueue α :=
  let r := GetNodeFromCache q
  match r with
  | (some n, q1) =>
    let q2 := { q1 with nodes := storeData (storeNext q1.nodes (some n) none) (some n) data }
    let q3 := { q2 with nodes := storeNext q2.nodes q2.m_head (some n) }
    { q3 with m_head := some n }
  | (none, q1) =>
    let n := q1.nodes.length
    let q2 := { q1 with nodes := q1.nodes ++ [({ m_next := none, m_data := data } : Node α)] }
    let q3 := { q2 with nodes := storeNext q2.nodes q2.m_head (some n) }
    { q3 with m_head := some n }

/-- The fresh-allocation path of `Enqueue` taken unconditionally (the
`else { node = new Node(data); }` branch followed by the publish step),
used as the comparison point for the cache-reuse path. -/
def EnqueueFresh (q : TSPSCQueue α) (data : α) : TSPSCQueue α :=
  let n := q.nodes.length
  let q2 := { q with nodes := q.nodes ++ [({ m_next := none, m_data := data } : Node α)] }
  let q3 := { q2 with nodes := storeNext q2.nodes q2.m_head (some n) }
  { q3 with m_head := some n }

/-- `TSPSCQueue<T>::Dequeue(T&)`, consumer side.  `data` is the
out-parameter of the caller; the result is (return value, out-parameter after the call,
queue after the call). -/
def Dequeue (q : TSPSCQueue α) (data : α) : Bool × α × TSPSCQueue α :=
  let tail := q.m_tail
  let nxt := (derefNode q.nodes tail).m_next
  match nxt with
  | some n => (true, (nodeAt q.nodes n).m_data, { q with m_tail := some n })
  | none => (false, data, q)

/-- Which C++ special member an `Enqueue` overload invokes to transfer the
argument into the payload of the node. -/
inductive TransferKind where
  | copy : TransferKind
  | move : TransferKind
  deriving DecidableEq, Repr

/-- Payload transfer performed by `Enqueue(const T& data)` on each path:
cache hit does `node->m_data = data` (copy assignment); cache miss does
`new Node(data)` with `U` deduced as `const T&`, so `std::forward` passes an
lvalue and `m_data` is copy-constructed.  Both paths copy. -/
def enqueueLvalueTransfer (cacheHit : Bool) : TransferKind :=
  if cacheHit then TransferKind.copy else TransferKind.copy

/-- Payload transfer performed by `Enqueue(T&& data)` on each path: cache hit
does `node->m_data = std::move(data)` (move assignment); cache miss does
`new Node(data)` — the id-expression `data` is an lvalue of type `T`, so `U`
is deduced as `T&`, `std::forward<T&>(data)` is an lvalue and `m_data` is
copy-constructed, not moved. -/
def enqueueRvalueTransfer (cacheHit : Bool) : TransferKind :=
  if cacheHit then TransferKind.move else TransferKind.copy

/-- One client call: `enq v` is `Enqueue(v)` by the producer, `deq` is
`Dequeue` by the consumer. -/
inductive Op (α : Type) where
  | enq : α → Op α
  | deq : Op α

/-- Run a sequence of calls against the queue implementation, collecting the
values returned by the successful dequeues in order.  Each failed `Dequeue`
leaves the out-parameter as it was (we pass `default`). -/
def runImpl (q : TSPSCQueue α) : List (Op α) → TSPSCQueue α × List α
  | [] => (q, [])
  | Op.enq v :: rest => runImpl (Enqueue q v) rest
  | Op.deq :: rest =>
    let d := Dequeue q default
    if d.1 then ((runImpl d.2.2 rest).1, d.2.1 :: (runImpl d.2.2 rest).2)
    else runImpl d.2.2 rest

/-- Run a sequence of calls using the always-fresh-allocation enqueue path
instead of the cache-reuse path. -/
def runImplFresh (q : TSPSCQueue α) : List (Op α) → TSPSCQueue α × List α
  | [] => (q, [])
  | Op.enq v :: rest => runImplFresh (EnqueueFresh q v) rest
  | Op.deq :: rest =>
    let d := Dequeue q default
    if d.1 then ((runImplFresh d.2.2 rest).1, d.2.1 :: (runImplFresh d.2.2 rest).2)
    else runImplFresh d.2.2 rest

/-- The values passed to `Enqueue`, in call order. -/
def enqValues : List (Op α) → List α
  | [] => []
  | Op.enq v :: rest => v :: enqValues rest
  | Op.deq :: rest => enqValues rest

/-- The specification-level queue: state is the list of pending values,
`enq` appends, `deq` removes the front when non-empty.  `mrun` returns the
final pending list and the successfully dequeued values in order. -/
def mrun (s : List α) : List (Op α) → List α × List α
  | [] => (s, [])
  | Op.enq v :: rest => mrun (s ++ [v]) rest
  | Op.deq :: rest =>
    match s with
    | [] => mrun [] rest
    | x :: xs => ((mrun xs rest).1, x :: (mrun xs rest).2)

/-- `isChain ns l stop = true` iff following next-pointers in arena `ns`
visits exactly the addresses of `l` in order and the final next-pointer
is `stop` (for `l = []` there is no constraint). -/
def isChain (ns : List (Node α)) : List Nat → Option Nat → Bool
  | [], _ => true
  | i :: r, stop =>
    ((nodeAt ns i).m_next == (r.head?).or stop) && isChain ns r stop

/-- The structural invariant of reachable queue states, with one explicit
witness: `l` is the full node chain from `m_first` to `m_head` (so the chain
is non-empty and acyclic and covers exactly the allocated arena), and
`m_tailCopy`, `m_tail` sit at positions `itc ≤ it` on it, with `m_first` at
position `0` and `m_head` at the last position. -/
def Inv (q : TSPSCQueue α) (l : List Nat) (itc it : Nat) : Prop :=
  isChain q.nodes l none = true ∧
  l.Nodup ∧
  (∀ i ∈ l, i < q.nodes.length) ∧
  (∀ i < q.nodes.length, i ∈ l) ∧
  q.m_first = l[0]? ∧
  q.m_head = l[l.length - 1]? ∧
  q.m_tailCopy = l[itc]? ∧
  q.m_tail = l[it]? ∧
  itc ≤ it ∧
  it < l.length

/-- The abstraction function: the pending values of the queue are the
payloads of the chain nodes strictly past the `m_tail` position. -/
def absQ (q : TSPSCQueue α) (l : List Nat) (it : Nat) : List α :=
  (l.drop (it + 1)).map (fun i => (nodeAt q.nodes i).m_data)

/-- A concrete two-node queue state (one value enqueued and dequeued, one
value pending): chain `0 → 1`, `m_first = m_tailCopy = 0`,
`m_tail = m_head = 1`.  Used to evaluate theorems at a concrete input. -/
def sampleQ : TSPSCQueue Nat :=
  { nodes := [{ m_next := some 1, m_data := 5 }, { m_next := none, m_data := 7 }]
    m_tail := some 1
    m_head := some 1
    m_first := some 0
    m_tailCopy := some 0 }

instance instDecInv (q : TSPSCQueue α) (l : List Nat) (itc it : Nat) :
    Decidable (Inv q l itc it) := by
  unfold Inv
  infer_instance

theorem nodeAt_set_self {ns : List (Node α)} {i : Nat} (h : i < ns.length)
    (x : Node α) : nodeAt (ns.set i x) i = x := by
  simp [nodeAt, List.getElem?_set_self h]

theorem nodeAt_set_ne {ns : List (Node α)} {i j : Nat} (h : i ≠ j)
    (x : Node α) : nodeAt (ns.set i x) j = nodeAt ns j := by
  simp [nodeAt, List.getElem?_set_ne h]

theorem nodeAt_append_lt {ns ms : List (Node α)} {i : Nat} (h : i < ns.length) :
    nodeAt (ns ++ ms) i = nodeAt ns i := by
  simp [nodeAt, List.getElem?_append, h]

theorem nodeAt_append_len (ns : List (Node α)) (x : Node α) :
    nodeAt (ns ++ [x]) ns.length = x := by
  simp [nodeAt, List.getElem?_append_right (le_refl ns.length)]

theorem isChain_cons {ns : List (Node α)} {i : Nat} {r : List Nat}
    {stop : Option Nat} :
    isChain ns (i :: r) stop =
      (((nodeAt ns i).m_next == (r.head?).or stop) && isChain ns r stop) := rfl

theorem isChain_congr (ns ns' : List (Node α)) :
    ∀ (l : List Nat) (stop : Option Nat),
      (∀ i ∈ l, (nodeAt ns' i).m_next = (nodeAt ns i).m_next) →
      isChain ns' l stop = isChain ns l stop := by
  intro l
  induction l with
  | nil => intro stop h; rfl
  | cons a r ih =>
    intro stop h
    rw [isChain_cons, isChain_cons, h a (by simp),
      ih stop (fun i hi => h i (by simp [hi]))]

theorem isChain_next {ns : List (Node α)} :
    ∀ (l : List Nat) (stop : Option Nat), isChain ns l stop = true →
      ∀ (k x : Nat), l[k]? = some x →
        (nodeAt ns x).m_next = (l[k + 1]?).or stop := by
  intro l
  induction l with
  | nil => intro stop h k x hx; simp at hx
  | cons a r ih =>
    intro stop h k x hx
    rw [isChain_cons, Bool.and_eq_true, beq_iff_eq] at h
    obtain ⟨h1, h2⟩ := h
    cases k with
    | zero =>
      rw [List.getElem?_cons_zero, Option.some_inj] at hx
      subst hx
      rw [h1, List.getElem?_cons_succ, ← List.head?_eq_getElem?]
    | succ k =>
      rw [List.getElem?_cons_succ] at hx
      rw [List.getElem?_cons_succ]
      exact ih stop h2 k x hx

theorem isChain_snoc {ns : List (Node α)} :
    ∀ (xs : List Nat) (b : Nat) (stop : Option Nat),
      isChain ns (xs ++ [b]) stop =
        (isChain ns xs (some b) && ((nodeAt ns b).m_next == stop)) := by
  intro xs
  induction xs with
  | nil => intro b stop; simp [isChain]
  | cons a r ih =>
    intro b stop
    rw [List.cons_append, isChain_cons, ih, isChain_cons]
    cases r with
    | nil => simp [Bool.and_assoc]
    | cons c r' => simp [Bool.and_assoc]

theorem isChain_update_last {ns ns' : List (Node α)} :
    ∀ (r : List Nat) (lastEl m : Nat),
      isChain ns r none = true → r.Nodup →
      r[r.length - 1]? = some lastEl →
      (∀ i ∈ r, i ≠ lastEl → (nodeAt ns' i).m_next = (nodeAt ns i).m_next) →
      (nodeAt ns' lastEl).m_next = some m →
      isChain ns' r (some m) = true := by
  intro r
  induction r with
  | nil => intro lastEl m hch hnd hlast hagree hnew; simp at hlast
  | cons a r ih =>
    intro lastEl m hch hnd hlast hagree hnew
    cases r with
    | nil =>
      simp only [List.length_singleton, Nat.sub_self,
        List.getElem?_cons_zero, Option.some_inj] at hlast
      subst hlast
      simp [isChain, hnew]
    | cons b r' =>
      have hlen : (a :: b :: r').length - 1 = (b :: r').length - 1 + 1 := by
        simp only [List.length_cons]
        omega
      rw [hlen, List.getElem?_cons_succ] at hlast
      have hmem : lastEl ∈ b :: r' := by
        obtain ⟨hlt, heq⟩ := List.getElem?_eq_some.mp hlast
        exact heq ▸ List.getElem_mem hlt
      have hane : a ≠ lastEl := by
        rcases List.nodup_cons.mp hnd with ⟨hna, _⟩
        intro e
        exact hna (e ▸ hmem)
      rw [isChain_cons, Bool.and_eq_true, beq_iff_eq] at hch
      obtain ⟨h1, h2⟩ := hch
      rw [isChain_cons, Bool.and_eq_true, beq_iff_eq]
      constructor
      · rw [hagree a (by simp) hane, h1]
        simp
      · exact ih lastEl m h2 (List.nodup_cons.mp hnd).2 hlast
          (fun i hi hne => hagree i (by simp [hi]) hne) hnew

theorem freeFrom_chain {ns : List (Node α)} :
    ∀ (r : List Nat) (x fuel : Nat),
      isChain ns (x :: r) none = true → r.length ≤ fuel →
      freeFrom ns fuel x = x :: r := by
  intro r
  induction r with
  | nil =>
    intro x fuel hch hf
    rw [isChain_cons, Bool.and_eq_true, beq_iff_eq] at hch
    obtain ⟨h1, _⟩ := hch
    simp only [List.head?_nil, Option.or_none] at h1
    cases fuel with
    | zero => rfl
    | succ f => simp [freeFrom, h1]
  | cons y r' ih =>
    intro x fuel hch hf
    rw [isChain_cons, Bool.and_eq_true, beq_iff_eq] at hch
    obtain ⟨h1, h2⟩ := hch
    simp only [List.head?_cons] at h1
    cases fuel with
    | zero => simp at hf
    | succ f =>
      have hf' : r'.length ≤ f := by
        simp only [List.length_cons] at hf
        omega
      simp [freeFrom, h1, ih y f h2 hf']

theorem getElemQ_append_lt {β : Type} {l1 l2 : List β} {k : Nat}
    (h : k < l1.length) : (l1 ++ l2)[k]? = l1[k]? := by
  simp [List.getElem?_append, h]

theorem gnc_inv_hit {q : TSPSCQueue α} {l : List Nat} {itc it : Nat}
    (hInv : Inv q l itc it) (hitc : itc ≠ 0) :
    GetNodeFromCache q = (l[0]?, { q with m_first := l[1]? }) := by
  obtain ⟨hch, hnd, hub, hcov, hf, hh, htc, ht, hle, hlt⟩ := hInv
  have h0 : 0 < l.length := Nat.lt_of_le_of_lt (Nat.zero_le it) hlt
  have h1 : 1 < l.length := by omega
  have hne : q.m_first ≠ q.m_tailCopy := by
    rw [hf, htc]
    intro he
    exact hitc (List.getElem?_inj h0 hnd he).symm
  have hnext : (derefNode q.nodes q.m_first).m_next = l[1]? := by
    rw [hf, List.getElem?_eq_getElem h0]
    show (nodeAt q.nodes (l[0])).m_next = l[1]?
    rw [isChain_next l none hch 0 (l[0]) (List.getElem?_eq_getElem h0),
      List.getElem?_eq_getElem h1]
    rfl
  simp only [GetNodeFromCache, if_pos hne]
  rw [hnext, hf]

theorem gnc_inv_reload {q : TSPSCQueue α} {l : List Nat} {itc it : Nat}
    (hInv : Inv q l itc it) (hitc : itc = 0) (hit : it ≠ 0) :
    GetNodeFromCache q =
      (l[0]?, { q with m_first := l[1]?, m_tailCopy := l[it]? }) := by
  obtain ⟨hch, hnd, hub, hcov, hf, hh, htc, ht, hle, hlt⟩ := hInv
  have h0 : 0 < l.length := Nat.lt_of_le_of_lt (Nat.zero_le it) hlt
  have h1 : 1 < l.length := by omega
  have heq : q.m_first = q.m_tailCopy := by
    rw [hf, htc, hitc]
  have hne2 : q.m_first ≠ q.m_tail := by
    rw [hf, ht]
    intro he
    exact hit (List.getElem?_inj h0 hnd he).symm
  have hnext : (derefNode q.nodes q.m_first).m_next = l[1]? := by
    rw [hf, List.getElem?_eq_getElem h0]
    show (nodeAt q.nodes (l[0])).m_next = l[1]?
    rw [isChain_next l none hch 0 (l[0]) (List.getElem?_eq_getElem h0),
      List.getElem?_eq_getElem h1]
    rfl
  simp only [GetNodeFromCache, if_neg (not_not_intro heq)]
  simp only [if_pos hne2]
  rw [hnext, hf, ht]

theorem gnc_inv_miss {q : TSPSCQueue α} {l : List Nat} {itc it : Nat}
    (hInv : Inv q l itc it) (hitc : itc = 0) (hit : it = 0) :
    GetNodeFromCache q = (none, { q with m_tailCopy := l[it]? }) := by
  obtain ⟨hch, hnd, hub, hcov, hf, hh, htc, ht, hle, hlt⟩ := hInv
  have heq : q.m_first = q.m_tailCopy := by
    rw [hf, htc, hitc]
  have heq2 : q.m_first = q.m_tail := by
    rw [hf, ht, hit]
  simp only [GetNodeFromCache, if_neg (not_not_intro heq)]
  simp only [if_neg (not_not_intro heq2)]
  rw [ht]

theorem fresh_publish {q : TSPSCQueue α} {l : List Nat} {itc it : Nat}
    (hInv : Inv q l itc it) (v : α) :
    Inv { q with
            nodes := storeNext (q.nodes ++ [({ m_next := none, m_data := v } : Node α)])
              q.m_head (some q.nodes.length)
            m_head := some q.nodes.length }
        (l ++ [q.nodes.length]) itc it ∧
    absQ { q with
            nodes := storeNext (q.nodes ++ [({ m_next := none, m_data := v } : Node α)])
              q.m_head (some q.nodes.length)
            m_head := some q.nodes.length }
        (l ++ [q.nodes.length]) it = absQ q l it ++ [v] := by
  obtain ⟨hch, hnd, hub, hcov, hf, hh, htc, ht, hle, hlt⟩ := hInv
  have h0 : 0 < l.length := Nat.lt_of_le_of_lt (Nat.zero_le it) hlt
  have hL1 : l.length - 1 < l.length := by omega
  obtain ⟨lastEl, hlastEq⟩ : ∃ x, l[l.length - 1]? = some x :=
    ⟨_, List.getElem?_eq_getElem hL1⟩
  have hlast_mem : lastEl ∈ l := by
    obtain ⟨hb, he⟩ := List.getElem?_eq_some.mp hlastEq
    exact he ▸ List.getElem_mem hb
  have hlast_lt : lastEl < q.nodes.length := hub lastEl hlast_mem
  have hn_notmem : q.nodes.length ∉ l := fun hm => absurd (hub _ hm) (by omega)
  have hhead_last : q.m_head = some lastEl := hh.trans hlastEq
  have hsn : storeNext (q.nodes ++ [({ m_next := none, m_data := v } : Node α)])
      q.m_head (some q.nodes.length) =
      (q.nodes ++ [({ m_next := none, m_data := v } : Node α)]).set lastEl
        ({ nodeAt q.nodes lastEl with m_next := some q.nodes.length }) := by
    rw [hhead_last]
    simp only [storeNext]
    rw [nodeAt_append_lt hlast_lt]
  rw [hsn]
  set nv : Node α := { m_next := none, m_data := v } with hnv
  set n := q.nodes.length with hn
  set NS := (q.nodes ++ [nv]).set lastEl
    ({ nodeAt q.nodes lastEl with m_next := some n }) with hNS
  have hNSlen : NS.length = q.nodes.length + 1 := by
    rw [hNS, List.length_set, List.length_append, List.length_singleton]
  have hlast_ne_n : lastEl ≠ n := Nat.ne_of_lt hlast_lt
  have hnodeAt_n : nodeAt NS n = nv := by
    rw [hNS, nodeAt_set_ne hlast_ne_n, hn, nodeAt_append_len]
  have hnodeAt_last : nodeAt NS lastEl = { nodeAt q.nodes lastEl with m_next := some n } := by
    rw [hNS]
    exact nodeAt_set_self (by rw [List.length_append]; omega) _
  have hnodeAt_other : ∀ i ∈ l, i ≠ lastEl → nodeAt NS i = nodeAt q.nodes i := by
    intro i hi hne
    rw [hNS, nodeAt_set_ne (fun e => hne e.symm), nodeAt_append_lt (hub i hi)]
  have hdata_same : ∀ i ∈ l, (nodeAt NS i).m_data = (nodeAt q.nodes i).m_data := by
    intro i hi
    by_cases he : i = lastEl
    · subst he
      rw [hnodeAt_last]
    · rw [hnodeAt_other i hi he]
  have hchain' : isChain NS (l ++ [n]) none = true := by
    rw [isChain_snoc, Bool.and_eq_true]
    constructor
    · exact isChain_update_last l lastEl n hch hnd hlastEq
        (fun i hi hne => by rw [hnodeAt_other i hi hne] )
        (by rw [hnodeAt_last])
    · rw [hnodeAt_n]
      rfl
  constructor
  · refine ⟨hchain', ?_, ?_, ?_, ?_, ?_, ?_, ?_, hle, ?_⟩
    · rw [List.nodup_append]
      exact ⟨hnd, List.nodup_singleton n, List.disjoint_singleton.mpr hn_notmem⟩
    · intro i hi
      show i < NS.length
      rw [hNSlen]
      rcases List.mem_append.mp hi with h | h
      · exact Nat.lt_succ_of_lt (hub i h)
      · simp only [List.mem_singleton] at h
        omega
    · intro i hi
      show i ∈ l ++ [n]
      rw [List.mem_append]
      change i < NS.length at hi
      rw [hNSlen] at hi
      rcases Nat.lt_or_ge i q.nodes.length with h | h
      · exact Or.inl (hcov i h)
      · right
        simp only [List.mem_singleton]
        omega
    · show q.m_first = (l ++ [n])[0]?
      rw [hf, getElemQ_append_lt h0]
    · show some n = (l ++ [n])[(l ++ [n]).length - 1]?
      rw [List.length_append, List.length_singleton]
      have he : l.length + 1 - 1 = l.length := by omega
      rw [he, List.getElem?_concat_length]
    · show q.m_tailCopy = (l ++ [n])[itc]?
      rw [htc, getElemQ_append_lt (by omega : itc < l.length)]
    · show q.m_tail = (l ++ [n])[it]?
      rw [ht, getElemQ_append_lt hlt]
    · show it < (l ++ [n]).length
      rw [List.length_append]
      omega
  · show ((l ++ [n]).drop (it + 1)).map (fun i => (nodeAt NS i).m_data) =
      absQ q l it ++ [v]
    rw [List.drop_append_of_le_length (by omega : it + 1 ≤ l.length),
      List.map_append]
    congr 1
    · exact List.map_congr_left
        (fun i hi => hdata_same i (List.mem_of_mem_drop hi))
    · simp only [List.map_cons, List.map_nil, hnodeAt_n]

theorem enqueue_step {q : TSPSCQueue α} {l : List Nat} {itc it : Nat}
    (hInv : Inv q l itc it) (v : α) :
    ∃ l' itc' it', Inv (Enqueue q v) l' itc' it' ∧
      absQ (Enqueue q v) l' it' = absQ q l it ++ [v] := by
  have hInv' := hInv
  obtain ⟨hch, hnd, hub, hcov, hf, hh, htc, ht, hle, hlt⟩ := hInv'
  by_cases hz : itc = 0 ∧ it = 0
  · obtain ⟨hitc0, hit0⟩ := hz
    have hgnc := gnc_inv_miss hInv hitc0 hit0
    have hInv_qg : Inv { q with m_tailCopy := l[it]? } l it it :=
      ⟨hch, hnd, hub, hcov, hf, hh, rfl, ht, Nat.le_refl it, hlt⟩
    obtain ⟨hI, hA⟩ := fresh_publish hInv_qg v
    refine ⟨l ++ [q.nodes.length], it, it, ?_, ?_⟩
    · simp only [Enqueue, hgnc]
      exact hI
    · simp only [Enqueue, hgnc]
      exact hA
  · -- reuse case: the effective tailCopy position j is nonzero
    obtain ⟨a, tl, rfl⟩ : ∃ a tl, l = a :: tl := by
      cases l with
      | nil => exact absurd hlt (by simp)
      | cons a tl => exact ⟨a, tl, rfl⟩
    have hjex : ∃ j, GetNodeFromCache q =
        ((a :: tl)[0]?, { q with m_first := (a :: tl)[1]?, m_tailCopy := (a :: tl)[j]? }) ∧
        0 < j ∧ j ≤ it := by
      by_cases h0c : itc = 0
      · have hit0 : it ≠ 0 := fun e => hz ⟨h0c, e⟩
        exact ⟨it, gnc_inv_reload hInv h0c hit0, Nat.pos_of_ne_zero hit0, Nat.le_refl it⟩
      · refine ⟨itc, ?_, Nat.pos_of_ne_zero h0c, hle⟩
        rw [gnc_inv_hit hInv h0c, ← htc]
      -- in the hit case m_tailCopy is unchanged, and the extended record
      -- collapses to the plain update by structure eta
    obtain ⟨j, hgnc, hjpos, hjle⟩ := hjex
    have hit1 : 1 ≤ it := Nat.le_trans hjpos hjle
    have htl0 : 0 < tl.length := by
      simp only [List.length_cons] at hlt
      omega
    have hitle : it ≤ tl.length := by
      simp only [List.length_cons] at hlt
      omega
    rw [List.getElem?_cons_zero] at hgnc
    -- nodes facts
    have ha_mem : a ∈ a :: tl := List.mem_cons_self a tl
    have ha_lt : a < q.nodes.length := hub a ha_mem
    have ha_ntl : a ∉ tl := (List.nodup_cons.mp hnd).1
    have hnd_tl : tl.Nodup := (List.nodup_cons.mp hnd).2
    have hL1 : tl.length - 1 < tl.length := by omega
    obtain ⟨lastEl, hlastEq⟩ : ∃ x, tl[tl.length - 1]? = some x :=
      ⟨_, List.getElem?_eq_getElem hL1⟩
    have hlast_mem : lastEl ∈ tl := by
      obtain ⟨hb, he⟩ := List.getElem?_eq_some.mp hlastEq
      exact he ▸ List.getElem_mem hb
    have hlast_lt : lastEl < q.nodes.length := hub lastEl (by simp [hlast_mem])
    have ha_ne_last : a ≠ lastEl := fun e => ha_ntl (e ▸ hlast_mem)
    have hhead_last : q.m_head = some lastEl := by
      rw [hh]
      simp only [List.length_cons]
      have he : tl.length + 1 - 1 = (tl.length - 1) + 1 := by omega
      rw [he, List.getElem?_cons_succ]
      exact hlastEq
    -- the chain hypothesis split
    have hch_a : (nodeAt q.nodes a).m_next = (tl.head?).or none := by
      rw [isChain_cons, Bool.and_eq_true, beq_iff_eq] at hch
      exact hch.1
    have hch_tl : isChain q.nodes tl none = true := by
      rw [isChain_cons, Bool.and_eq_true] at hch
      exact hch.2
    -- compute the new arena
    set nv : Node α := { m_next := none, m_data := v } with hnv
    have hstep2 : storeData (storeNext q.nodes (some a) none) (some a) v =
        q.nodes.set a nv := by
      simp only [storeNext, storeData]
      rw [nodeAt_set_self ha_lt, List.set_set]
    have hstep3 : storeNext (q.nodes.set a nv) q.m_head (some a) =
        (q.nodes.set a nv).set lastEl
          ({ nodeAt q.nodes lastEl with m_next := some a }) := by
      rw [hhead_last]
      simp only [storeNext]
      rw [nodeAt_set_ne ha_ne_last]
    set NS := (q.nodes.set a nv).set lastEl
      ({ nodeAt q.nodes lastEl with m_next := some a }) with hNS
    have hNSlen : NS.length = q.nodes.length := by
      rw [hNS, List.length_set, List.length_set]
    have hnodeAt_a : nodeAt NS a = nv := by
      rw [hNS, nodeAt_set_ne (fun e => ha_ne_last e.symm), nodeAt_set_self ha_lt]
    have hnodeAt_last : nodeAt NS lastEl =
        { nodeAt q.nodes lastEl with m_next := some a } := by
      rw [hNS]
      exact nodeAt_set_self (by rw [List.length_set]; exact hlast_lt) _
    have hnodeAt_other : ∀ i ∈ tl, i ≠ lastEl → nodeAt NS i = nodeAt q.nodes i := by
      intro i hi hne
      rw [hNS, nodeAt_set_ne (fun e => hne e.symm),
        nodeAt_set_ne (fun e => ha_ntl (by rw [e]; exact hi))]
    have hdata_same : ∀ i ∈ tl, (nodeAt NS i).m_data = (nodeAt q.nodes i).m_data := by
      intro i hi
      by_cases he : i = lastEl
      · subst he
        rw [hnodeAt_last]
      · rw [hnodeAt_other i hi he]
    have hchain' : isChain NS (tl ++ [a]) none = true := by
      rw [isChain_snoc, Bool.and_eq_true]
      constructor
      · exact isChain_update_last tl lastEl a hch_tl hnd_tl hlastEq
          (fun i hi hne => by rw [hnodeAt_other i hi hne])
          (by rw [hnodeAt_last])
      · rw [hnodeAt_a]
        rfl
    refine ⟨tl ++ [a], j - 1, it - 1, ?_, ?_⟩
    · simp only [Enqueue, hgnc, hstep2, hstep3]
      refine ⟨hchain', ?_, ?_, ?_, ?_, ?_, ?_, ?_, by omega, ?_⟩
      · rw [List.nodup_append]
        exact ⟨hnd_tl, List.nodup_singleton a, List.disjoint_singleton.mpr ha_ntl⟩
      · intro i hi
        show i < NS.length
        rw [hNSlen]
        rcases List.mem_append.mp hi with h | h
        · exact hub i (by simp [h])
        · simp only [List.mem_singleton] at h
          exact h ▸ ha_lt
      · intro i hi
        show i ∈ tl ++ [a]
        change i < NS.length at hi
        rw [hNSlen] at hi
        rcases List.mem_cons.mp (hcov i hi) with h | h
        · exact List.mem_append.mpr (Or.inr (by simp [h]))
        · exact List.mem_append.mpr (Or.inl h)
      · show (a :: tl)[1]? = (tl ++ [a])[0]?
        rw [List.getElem?_cons_succ, getElemQ_append_lt htl0]
      · show some a = (tl ++ [a])[(tl ++ [a]).length - 1]?
        rw [List.length_append, List.length_singleton]
        have he : tl.length + 1 - 1 = tl.length := by omega
        rw [he, List.getElem?_concat_length]
      · show (a :: tl)[j]? = (tl ++ [a])[j - 1]?
        have he : j = (j - 1) + 1 := by omega
        nth_rewrite 1 [he]
        rw [List.getElem?_cons_succ, getElemQ_append_lt (by omega)]
      · show q.m_tail = (tl ++ [a])[it - 1]?
        rw [ht]
        have he : it = (it - 1) + 1 := by omega
        nth_rewrite 1 [he]
        rw [List.getElem?_cons_succ, getElemQ_append_lt (by omega)]
      · show it - 1 < (tl ++ [a]).length
        rw [List.length_append]
        omega
    · simp only [Enqueue, hgnc, hstep2, hstep3]
      show ((tl ++ [a]).drop ((it - 1) + 1)).map (fun i => (nodeAt NS i).m_data) =
        absQ q (a :: tl) it ++ [v]
      have he : (it - 1) + 1 = it := by omega
      rw [he, List.drop_append_of_le_length hitle, List.map_append]
      have habs : absQ q (a :: tl) it =
          (tl.drop it).map (fun i => (nodeAt q.nodes i).m_data) := by
        show ((a :: tl).drop (it + 1)).map (fun i => (nodeAt q.nodes i).m_data) = _
        rw [List.drop_succ_cons]
      rw [habs]
      congr 1
      · exact List.map_congr_left
          (fun i hi => hdata_same i (List.mem_of_mem_drop hi))
      · simp only [List.map_cons, List.map_nil, hnodeAt_a]

theorem dequeue_step_empty {q : TSPSCQueue α} {l : List Nat} {itc it : Nat}
    (hInv : Inv q l itc it) (habs : absQ q l it = []) (d : α) :
    Dequeue q d = (false, d, q) := by
  obtain ⟨hch, hnd, hub, hcov, hf, hh, htc, ht, hle, hlt⟩ := hInv
  have hlen : l.length ≤ it + 1 := by
    simp only [absQ, List.map_eq_nil_iff, List.drop_eq_nil_iff] at habs
    exact habs
  have hnext : (derefNode q.nodes q.m_tail).m_next = none := by
    rw [ht, List.getElem?_eq_getElem hlt]
    show (nodeAt q.nodes (l[it])).m_next = none
    rw [isChain_next l none hch it (l[it]) (List.getElem?_eq_getElem hlt),
      List.getElem?_eq_none (by omega)]
    rfl
  simp only [Dequeue, hnext]

theorem dequeue_step_cons {q : TSPSCQueue α} {l : List Nat} {itc it : Nat}
    (hInv : Inv q l itc it) {x : α} {xs : List α}
    (habs : absQ q l it = x :: xs) (d : α) :
    (Dequeue q d).1 = true ∧ (Dequeue q d).2.1 = x ∧
      Inv (Dequeue q d).2.2 l itc (it + 1) ∧
      absQ (Dequeue q d).2.2 l (it + 1) = xs := by
  have hInv' := hInv
  obtain ⟨hch, hnd, hub, hcov, hf, hh, htc, ht, hle, hlt⟩ := hInv'
  have hlt1 : it + 1 < l.length := by
    by_contra hc
    rw [absQ, List.drop_eq_nil_of_le (by omega), List.map_nil] at habs
    exact List.noConfusion habs
  have hnext : (derefNode q.nodes q.m_tail).m_next = some (l[it + 1]) := by
    rw [ht, List.getElem?_eq_getElem hlt]
    show (nodeAt q.nodes (l[it])).m_next = _
    rw [isChain_next l none hch it (l[it]) (List.getElem?_eq_getElem hlt),
      List.getElem?_eq_getElem hlt1]
    rfl
  have hd : l.drop (it + 1) = l[it + 1] :: l.drop (it + 2) :=
    List.drop_eq_getElem_cons hlt1
  rw [absQ, hd, List.map_cons] at habs
  injection habs with hx hxs
  simp only [Dequeue, hnext]
  refine ⟨trivial, hx, ?_, hxs⟩
  exact ⟨hch, hnd, hub, hcov, hf, hh, htc,
    (List.getElem?_eq_getElem hlt1).symm, by omega, hlt1⟩

theorem construct_inv : Inv (construct : TSPSCQueue α) [0] 0 0 := by
  refine ⟨rfl, List.nodup_singleton 0, ?_, ?_, rfl, rfl, rfl, rfl, Nat.le_refl 0, by simp⟩
  · intro i hi
    simp only [List.mem_singleton] at hi
    subst hi
    show 0 < 1
    omega
  · intro i hi
    show i ∈ [0]
    change i < 1 at hi
    simp only [List.mem_singleton]
    omega

theorem absQ_construct : absQ (construct : TSPSCQueue α) [0] 0 = [] := rfl

theorem runImpl_sim : ∀ (ops : List (Op α)) (q : TSPSCQueue α) (l : List Nat)
    (itc it : Nat), Inv q l itc it →
    (runImpl q ops).2 = (mrun (absQ q l it) ops).2 ∧
    ∃ l' itc' it', Inv (runImpl q ops).1 l' itc' it' ∧
      absQ (runImpl q ops).1 l' it' = (mrun (absQ q l it) ops).1 := by
  intro ops
  induction ops with
  | nil =>
    intro q l itc it hInv
    exact ⟨rfl, l, itc, it, hInv, rfl⟩
  | cons op rest ih =>
    intro q l itc it hInv
    cases op with
    | enq v =>
      obtain ⟨l', itc', it', hI, hA⟩ := enqueue_step hInv v
      obtain ⟨h1, h2⟩ := ih (Enqueue q v) l' itc' it' hI
      constructor
      · show (runImpl (Enqueue q v) rest).2 = (mrun (absQ q l it ++ [v]) rest).2
        rw [h1, hA]
      · obtain ⟨l2, itc2, it2, hI2, hA2⟩ := h2
        refine ⟨l2, itc2, it2, hI2, ?_⟩
        show absQ (runImpl (Enqueue q v) rest).1 l2 it2 =
          (mrun (absQ q l it ++ [v]) rest).1
        rw [hA2, hA]
    | deq =>
      cases habs : absQ q l it with
      | nil =>
        have hdq := dequeue_step_empty hInv habs (default : α)
        obtain ⟨h1, h2⟩ := ih q l itc it hInv
        rw [habs] at h1 h2
        constructor
        · show (runImpl q (Op.deq :: rest)).2 = (mrun [] (Op.deq :: rest)).2
          simp only [runImpl, mrun, hdq]
          exact h1
        · obtain ⟨l2, itc2, it2, hI2, hA2⟩ := h2
          refine ⟨l2, itc2, it2, ?_, ?_⟩
          · show Inv (runImpl q (Op.deq :: rest)).1 l2 itc2 it2
            simp only [runImpl, hdq]
            exact hI2
          · show absQ (runImpl q (Op.deq :: rest)).1 l2 it2 =
              (mrun [] (Op.deq :: rest)).1
            simp only [runImpl, mrun, hdq]
            exact hA2
      | cons x xs =>
        obtain ⟨hb, hx, hI', hA'⟩ := dequeue_step_cons hInv habs (default : α)
        obtain ⟨h1, h2⟩ := ih (Dequeue q (default : α)).2.2 l itc (it + 1) hI'
        rw [hA'] at h1 h2
        constructor
        · show (runImpl q (Op.deq :: rest)).2 = (mrun (x :: xs) (Op.deq :: rest)).2
          simp only [runImpl, mrun, hb, if_true]
          rw [h1, hx]
        · obtain ⟨l2, itc2, it2, hI2, hA2⟩ := h2
          refine ⟨l2, itc2, it2, ?_, ?_⟩
          · show Inv (runImpl q (Op.deq :: rest)).1 l2 itc2 it2
            simp only [runImpl, hb, if_true]
            exact hI2
          · show absQ (runImpl q (Op.deq :: rest)).1 l2 it2 =
              (mrun (x :: xs) (Op.deq :: rest)).1
            simp only [runImpl, mrun, hb, if_true]
            exact hA2

theorem enqueue_fresh_step {q : TSPSCQueue α} {l : List Nat} {itc it : Nat}
    (hInv : Inv q l itc it) (v : α) :
    Inv (EnqueueFresh q v) (l ++ [q.nodes.length]) itc it ∧
      absQ (EnqueueFresh q v) (l ++ [q.nodes.length]) it = absQ q l it ++ [v] :=
  fresh_publish hInv v

theorem runImplFresh_sim : ∀ (ops : List (Op α)) (q : TSPSCQueue α)
    (l : List Nat) (itc it : Nat), Inv q l itc it →
    (runImplFresh q ops).2 = (mrun (absQ q l it) ops).2 ∧
    ∃ l' itc' it', Inv (runImplFresh q ops).1 l' itc' it' ∧
      absQ (runImplFresh q ops).1 l' it' = (mrun (absQ q l it) ops).1 := by
  intro ops
  induction ops with
  | nil =>
    intro q l itc it hInv
    exact ⟨rfl, l, itc, it, hInv, rfl⟩
  | cons op rest ih =>
    intro q l itc it hInv
    cases op with
    | enq v =>
      obtain ⟨hI, hA⟩ := enqueue_fresh_step hInv v
      obtain ⟨h1, h2⟩ := ih (EnqueueFresh q v) (l ++ [q.nodes.length]) itc it hI
      constructor
      · show (runImplFresh (EnqueueFresh q v) rest).2 =
          (mrun (absQ q l it ++ [v]) rest).2
        rw [h1, hA]
      · obtain ⟨l2, itc2, it2, hI2, hA2⟩ := h2
        refine ⟨l2, itc2, it2, hI2, ?_⟩
        show absQ (runImplFresh (EnqueueFresh q v) rest).1 l2 it2 =
          (mrun (absQ q l it ++ [v]) rest).1
        rw [hA2, hA]
    | deq =>
      cases habs : absQ q l it with
      | nil =>
        have hdq := dequeue_step_empty hInv habs (default : α)
        obtain ⟨h1, h2⟩ := ih q l itc it hInv
        rw [habs] at h1 h2
        constructor
        · show (runImplFresh q (Op.deq :: rest)).2 = (mrun [] (Op.deq :: rest)).2
          simp only [runImplFresh, mrun, hdq]
          exact h1
        · obtain ⟨l2, itc2, it2, hI2, hA2⟩ := h2
          refine ⟨l2, itc2, it2, ?_, ?_⟩
          · show Inv (runImplFresh q (Op.deq :: rest)).1 l2 itc2 it2
            simp only [runImplFresh, hdq]
            exact hI2
          · show absQ (runImplFresh q (Op.deq :: rest)).1 l2 it2 =
              (mrun [] (Op.deq :: rest)).1
            simp only [runImplFresh, mrun, hdq]
            exact hA2
      | cons x xs =>
        obtain ⟨hb, hx, hI', hA'⟩ := dequeue_step_cons hInv habs (default : α)
        obtain ⟨h1, h2⟩ := ih (Dequeue q (default : α)).2.2 l itc (it + 1) hI'
        rw [hA'] at h1 h2
        constructor
        · show (runImplFresh q (Op.deq :: rest)).2 = (mrun (x :: xs) (Op.deq :: rest)).2
          simp only [runImplFresh, mrun, hb, if_true]
          rw [h1, hx]
        · obtain ⟨l2, itc2, it2, hI2, hA2⟩ := h2
          refine ⟨l2, itc2, it2, ?_, ?_⟩
          · show Inv (runImplFresh q (Op.deq :: rest)).1 l2 itc2 it2
            simp only [runImplFresh, hb, if_true]
            exact hI2
          · show absQ (runImplFresh q (Op.deq :: rest)).1 l2 it2 =
              (mrun (x :: xs) (Op.deq :: rest)).1
            simp only [runImplFresh, mrun, hb, if_true]
            exact hA2

theorem mrun_conservation : ∀ (ops : List (Op α)) (s : List α),
    (mrun s ops).2 ++ (mrun s ops).1 = s ++ enqValues ops := by
  intro ops
  induction ops with
  | nil => intro s; simp [mrun, enqValues]
  | cons op rest ih =>
    intro s
    cases op with
    | enq v =>
      show (mrun (s ++ [v]) rest).2 ++ (mrun (s ++ [v]) rest).1 =
        s ++ (v :: enqValues rest)
      rw [ih (s ++ [v])]
      simp
    | deq =>
      cases s with
      | nil =>
        show (mrun [] rest).2 ++ (mrun [] rest).1 = [] ++ enqValues rest
        exact ih []
      | cons x xs =>
        show (x :: (mrun xs rest).2) ++ (mrun xs rest).1 =
          (x :: xs) ++ enqValues rest
        rw [List.cons_append, ih xs]
        rfl

theorem mrun_append : ∀ (a b : List (Op α)) (s : List α),
    mrun s (a ++ b) =
      ((mrun (mrun s a).1 b).1, (mrun s a).2 ++ (mrun (mrun s a).1 b).2) := by
  intro a
  induction a with
  | nil => intro b s; simp [mrun]
  | cons op rest ih =>
    intro b s
    cases op with
    | enq v =>
      show mrun (s ++ [v]) (rest ++ b) = _
      rw [ih b (s ++ [v])]
      rfl
    | deq =>
      cases s with
      | nil =>
        show mrun [] (rest ++ b) = _
        rw [ih b []]
        rfl
      | cons x xs =>
        show ((mrun xs (rest ++ b)).1, x :: (mrun xs (rest ++ b)).2) = _
        rw [ih b xs]
        rfl

theorem mrun_drain : ∀ (j : Nat) (s : List α), s.length ≤ j →
    mrun s (List.replicate j Op.deq) = ([], s) := by
  intro j
  induction j with
  | zero =>
    intro s hs
    rw [Nat.le_zero, List.length_eq_zero] at hs
    subst hs
    rfl
  | succ j ih =>
    intro s hs
    rw [List.replicate_succ]
    cases s with
    | nil =>
      show mrun [] (List.replicate j Op.deq) = ([], [])
      exact ih [] (by simp)
    | cons x xs =>
      show ((mrun xs (List.replicate j Op.deq)).1,
        x :: (mrun xs (List.replicate j Op.deq)).2) = ([], x :: xs)
      rw [ih xs (by simp at hs; omega)]

theorem mrun_enqs : ∀ (vs : List α) (s : List α),
    mrun s (vs.map Op.enq) = (s ++ vs, []) := by
  intro vs
  induction vs with
  | nil => intro s; simp [mrun]
  | cons v vs ih =>
    intro s
    show mrun (s ++ [v]) (vs.map Op.enq) = (s ++ v :: vs, [])
    rw [ih (s ++ [v])]
    simp

theorem nodup_bounded_length_le {l : List Nat} {n : Nat} (hnd : l.Nodup)
    (hub : ∀ i ∈ l, i < n) : l.length ≤ n := by
  have h1 : l.toFinset ⊆ Finset.range n := by
    intro i hi
    rw [Finset.mem_range]
    exact hub i (List.mem_toFinset.mp hi)
  have h2 := Finset.card_le_card h1
  rw [List.toFinset_card_of_nodup hnd, Finset.card_range] at h2
  exact h2

theorem destruct_eq_chain {q : TSPSCQueue α} {l : List Nat} {itc it : Nat}
    (hInv : Inv q l itc it) : destruct q = l := by
  obtain ⟨hch, hnd, hub, hcov, hf, hh, htc, ht, hle, hlt⟩ := hInv
  obtain ⟨a, tl, rfl⟩ : ∃ a tl, l = a :: tl := by
    cases l with
    | nil => exact absurd hlt (by simp)
    | cons a tl => exact ⟨a, tl, rfl⟩
  have hf' : q.m_first = some a := hf.trans List.getElem?_cons_zero
  have hlen : tl.length ≤ q.nodes.length := by
    have := nodup_bounded_length_le hnd hub
    simp only [List.length_cons] at this
    omega
  simp only [destruct, hf']
  exact freeFrom_chain tl a q.nodes.length hch hlen



/-- Claim C1: over any interleaving of `Enqueue` and `Dequeue` calls (the
SPSC discipline with call-atomic steps), the successfully dequeued values
are a prefix of the enqueued values in order; and with `K + m` further
`Dequeue` calls appended (`K` the total number of enqueues, any `m`), the
successful dequeues are exactly the `K` enqueued values — so dequeues
succeed exactly `K` times in total and every later call returns false, with
no value reordered, lost, duplicated, or fabricated. -/
theorem spsc_fifo_conservation (ops : List (Op α)) (m : Nat) :
    (∃ rest, (runImpl (construct : TSPSCQueue α) ops).2 ++ rest = enqValues ops) ∧
    (runImpl (construct : TSPSCQueue α)
        (ops ++ List.replicate ((enqValues ops).length + m) Op.deq)).2 =
      enqValues ops := by
  constructor
  · obtain ⟨h1, -⟩ := runImpl_sim ops construct [0] 0 0 construct_inv
    rw [absQ_construct] at h1
    refine ⟨(mrun ([] : List α) ops).1, ?_⟩
    rw [h1]
    have := mrun_conservation ops ([] : List α)
    simpa using this
  · obtain ⟨h1, -⟩ := runImpl_sim
      (ops ++ List.replicate ((enqValues ops).length + m) Op.deq)
      construct [0] 0 0 construct_inv
    rw [absQ_construct] at h1
    rw [h1, mrun_append]
    have hcons := mrun_conservation ops ([] : List α)
    simp only [List.nil_append] at hcons
    have hslen : (mrun ([] : List α) ops).1.length ≤ (enqValues ops).length + m := by
      have := congrArg List.length hcons
      rw [List.length_append] at this
      omega
    rw [mrun_drain _ _ hslen]
    exact hcons

/-- Claim C2: every state reachable from construction by a sequence of
`Enqueue`/`Dequeue` calls satisfies the structural invariant: a non-empty
acyclic node chain covering exactly the allocated nodes, with `m_first` at
position 0, `m_tailCopy` at position `itc`, `m_tail` at position `it`,
`itc ≤ it`, and `m_head` at the last position (so
`first ≤ tailCopy ≤ tail ≤ head` along the chain). -/
theorem spsc_reachable_invariant (ops : List (Op α)) :
    ∃ l itc it, l ≠ [] ∧
      Inv (runImpl (construct : TSPSCQueue α) ops).1 l itc it := by
  obtain ⟨-, l, itc, it, hI, -⟩ := runImpl_sim ops construct [0] 0 0 construct_inv
  refine ⟨l, itc, it, ?_, hI⟩
  obtain ⟨-, -, -, -, -, -, -, -, -, hlt⟩ := hI
  intro he
  rw [he] at hlt
  exact absurd hlt (by simp)

/-- Claim C3: `GetNodeFromCache` is straight-line: for any positive fuel the
`for(;;)` loop returns after a single execution of its body (which always
breaks), the body performs at most one load of the shared `m_tail`, and the
result is: the node at `m_first` with `m_first` advanced one link when
`m_first` differs from `m_tailCopy` immediately or after the single reload
of `m_tailCopy` from `m_tail`; null (with only `m_tailCopy` refreshed) when
`m_first` still equals the reloaded value. -/
theorem getNodeFromCache_spec (q : TSPSCQueue α) (fuel : Nat) (hfuel : 1 ≤ fuel) :
    gncLoop fuel q = some (GetNodeFromCache q) ∧
    (gncBody q).2 ≤ 1 ∧
    (q.m_first ≠ q.m_tailCopy →
      GetNodeFromCache q =
        (q.m_first, { q with m_first := (derefNode q.nodes q.m_first).m_next })) ∧
    (q.m_first = q.m_tailCopy → q.m_first ≠ q.m_tail →
      GetNodeFromCache q =
        (q.m_first, { q with
          m_first := (derefNode q.nodes q.m_first).m_next
          m_tailCopy := q.m_tail })) ∧
    (q.m_first = q.m_tailCopy → q.m_first = q.m_tail →
      GetNodeFromCache q = (none, { q with m_tailCopy := q.m_tail })) := by
  obtain ⟨f, rfl⟩ : ∃ f, fuel = f + 1 := by
    cases fuel with
    | zero => exact absurd hfuel (by omega)
    | succ f => exact ⟨f, rfl⟩
  have hbody : (gncBody q).1 = Flow.brk (GetNodeFromCache q) := by
    by_cases hc1 : q.m_first ≠ q.m_tailCopy
    · simp only [gncBody, GetNodeFromCache, if_pos hc1]
    · by_cases hc2 : q.m_first ≠ q.m_tail
      · simp only [gncBody, GetNodeFromCache, if_neg hc1]
        simp only [if_pos hc2]
      · simp only [gncBody, GetNodeFromCache, if_neg hc1]
        simp only [if_neg hc2]
  refine ⟨?_, ?_, ?_, ?_, ?_⟩
  · simp only [gncLoop, hbody]
  · by_cases hc1 : q.m_first ≠ q.m_tailCopy
    · simp only [gncBody, if_pos hc1]
      omega
    · by_cases hc2 : q.m_first ≠ q.m_tail
      · simp only [gncBody, if_neg hc1]
        simp only [if_pos hc2]
        omega
      · simp only [gncBody, if_neg hc1]
        simp only [if_neg hc2]
        omega
  · intro hc1
    simp only [GetNodeFromCache, if_pos hc1]
  · intro hc1 hc2
    simp only [GetNodeFromCache, if_neg (not_not_intro hc1)]
    simp only [if_pos hc2]
  · intro hc1 hc2
    simp only [GetNodeFromCache, if_neg (not_not_intro hc1)]
    simp only [if_neg (not_not_intro hc2)]

theorem getNodeFromCache_spec_witness :
    gncLoop 1 sampleQ = some (GetNodeFromCache sampleQ) :=
  (getNodeFromCache_spec sampleQ 1 (by decide)).1


/-- Claim C4: enqueueing `M` values, dequeueing all `M`, then enqueueing `M`
more and dequeueing them reads every value back correctly (the second batch
goes through the recycle-cache path), and the observable output equals what
the always-fresh-allocation enqueue produces on the same call sequence. -/
theorem reuse_path_matches_fresh (M : Nat) (vs1 vs2 : List α)
    (h1 : vs1.length = M) (h2 : vs2.length = M) :
    (runImpl (construct : TSPSCQueue α)
        (vs1.map Op.enq ++ List.replicate M Op.deq ++ vs2.map Op.enq ++
          List.replicate M Op.deq)).2 = vs1 ++ vs2 ∧
    (runImplFresh (construct : TSPSCQueue α)
        (vs1.map Op.enq ++ List.replicate M Op.deq ++ vs2.map Op.enq ++
          List.replicate M Op.deq)).2 = vs1 ++ vs2 := by
  have ha : mrun ([] : List α) (vs1.map Op.enq) = (vs1, []) := by
    rw [mrun_enqs]
    simp
  have hab : mrun ([] : List α) (vs1.map Op.enq ++ List.replicate M Op.deq) =
      ([], vs1) := by
    rw [mrun_append, ha, mrun_drain M vs1 (Nat.le_of_eq h1)]
    simp
  have habc : mrun ([] : List α)
      (vs1.map Op.enq ++ List.replicate M Op.deq ++ vs2.map Op.enq) =
      (vs2, vs1) := by
    rw [mrun_append, hab, mrun_enqs]
    simp
  have habcd : mrun ([] : List α)
      (vs1.map Op.enq ++ List.replicate M Op.deq ++ vs2.map Op.enq ++
        List.replicate M Op.deq) = ([], vs1 ++ vs2) := by
    rw [mrun_append, habc, mrun_drain M vs2 (Nat.le_of_eq h2)]
  constructor
  · obtain ⟨hout, -⟩ := runImpl_sim
      (vs1.map Op.enq ++ List.replicate M Op.deq ++ vs2.map Op.enq ++
        List.replicate M Op.deq) construct [0] 0 0 construct_inv
    rw [absQ_construct] at hout
    rw [hout, habcd]
  · obtain ⟨hout, -⟩ := runImplFresh_sim
      (vs1.map Op.enq ++ List.replicate M Op.deq ++ vs2.map Op.enq ++
        List.replicate M Op.deq) construct [0] 0 0 construct_inv
    rw [absQ_construct] at hout
    rw [hout, habcd]

theorem reuse_path_matches_fresh_witness :
    (runImpl (construct : TSPSCQueue Nat)
        ([3].map Op.enq ++ List.replicate 1 Op.deq ++ [4].map Op.enq ++
          List.replicate 1 Op.deq)).2 = [3] ++ [4] ∧
    (runImplFresh (construct : TSPSCQueue Nat)
        ([3].map Op.enq ++ List.replicate 1 Op.deq ++ [4].map Op.enq ++
          List.replicate 1 Op.deq)).2 = [3] ++ [4] :=
  reuse_path_matches_fresh 1 [3] [4] (by decide) (by decide)

/-- Claim C5, counterexample: the claim says the rvalue overload
`Enqueue(T&&)` moves on both paths, but on the fresh-allocation path the
code executes `new Node(data)` where `data` is an lvalue, so the payload is
copy-constructed, not moved. -/
theorem enqueueRvalue_fresh_copies :
    enqueueRvalueTransfer false ≠ TransferKind.move := by decide

/-- Claim C5, amended: the const-reference overload copies on both paths;
the rvalue overload move-assigns on the cache-reuse path but
copy-constructs on the fresh-allocation path. -/
theorem enqueue_transfer_kinds :
    enqueueLvalueTransfer true = TransferKind.copy ∧
    enqueueLvalueTransfer false = TransferKind.copy ∧
    enqueueRvalueTransfer true = TransferKind.move ∧
    enqueueRvalueTransfer false = TransferKind.copy :=
  ⟨rfl, rfl, rfl, rfl⟩

/-- Claim C6: when the next-pointer of the node `m_tail` points at is null,
`Dequeue` returns false and has no other effect: the queue state (all four
cursors and every node) and the out-parameter of the caller are returned
unchanged. -/
theorem dequeue_empty_noop (q : TSPSCQueue α) (d : α)
    (h : (derefNode q.nodes q.m_tail).m_next = none) :
    Dequeue q d = (false, d, q) := by
  simp only [Dequeue, h]

theorem dequeue_empty_noop_witness :
    Dequeue (construct : TSPSCQueue Nat) 7 = (false, 7, construct) :=
  dequeue_empty_noop construct 7 (by decide)

/-- Claim C7: construction allocates exactly one dummy node with a null
next-pointer and default payload, points all four cursors at it, and the
first `Dequeue` on the fresh queue returns false (leaving everything
unchanged). -/
theorem construct_spec (d : α) :
    (construct : TSPSCQueue α).nodes =
      [{ m_next := none, m_data := (default : α) }] ∧
    (construct : TSPSCQueue α).m_tail = some 0 ∧
    (construct : TSPSCQueue α).m_head = some 0 ∧
    (construct : TSPSCQueue α).m_first = some 0 ∧
    (construct : TSPSCQueue α).m_tailCopy = some 0 ∧
    Dequeue (construct : TSPSCQueue α) d = (false, d, construct) :=
  ⟨rfl, rfl, rfl, rfl, rfl, rfl⟩

/-- Claim C8: after any sequence of operations, the destructor walk starting
at `m_first` releases each allocated node exactly once (no double release)
and releases every allocated node (no leak): the released address list has
no duplicates and contains an address iff it is an allocated arena index. -/
theorem destruct_releases_exactly (ops : List (Op α)) :
    (destruct (runImpl (construct : TSPSCQueue α) ops).1).Nodup ∧
    ∀ i, i ∈ destruct (runImpl (construct : TSPSCQueue α) ops).1 ↔
      i < (runImpl (construct : TSPSCQueue α) ops).1.nodes.length := by
  obtain ⟨-, l, itc, it, hI, -⟩ := runImpl_sim ops construct [0] 0 0 construct_inv
  have hd := destruct_eq_chain hI
  obtain ⟨hch, hnd, hub, hcov, -⟩ := hI
  rw [hd]
  exact ⟨hnd, fun i => ⟨fun h => hub i h, fun h => hcov i h⟩⟩

/-- Claim C10: whenever `GetNodeFromCache` hands out a node, that node is
the one at `m_first`, which sits strictly before the position of the shared
`m_tail` on the chain; in particular it is never the node `m_tail` points
at, before or after the call. -/
theorem gnc_never_returns_tail {q : TSPSCQueue α} {l : List Nat}
    {itc it : Nat} (hInv : Inv q l itc it) {n : Nat}
    (hn : (GetNodeFromCache q).1 = some n) :
    q.m_tail ≠ some n ∧ (GetNodeFromCache q).2.m_tail ≠ some n ∧
      l[0]? = some n ∧ 0 < it := by
  have hInv' := hInv
  obtain ⟨hch, hnd, hub, hcov, hf, hh, htc, ht, hle, hlt⟩ := hInv'
  have h0 : 0 < l.length := Nat.lt_of_le_of_lt (Nat.zero_le it) hlt
  by_cases hitc : itc = 0
  · by_cases hit : it = 0
    · rw [gnc_inv_miss hInv hitc hit] at hn
      exact absurd hn (by simp)
    · have hg := gnc_inv_reload hInv hitc hit
      rw [hg] at hn
      have hpos : 0 < it := Nat.pos_of_ne_zero hit
      have htne : q.m_tail ≠ some n := by
        rw [ht, ← hn]
        intro he
        exact hit (List.getElem?_inj hlt hnd he)
      refine ⟨htne, ?_, hn, hpos⟩
      rw [hg]
      exact htne
  · have hg := gnc_inv_hit hInv hitc
    rw [hg] at hn
    have hpos : 0 < it := by omega
    have htne : q.m_tail ≠ some n := by
      rw [ht, ← hn]
      intro he
      exact (by omega : it ≠ 0) (List.getElem?_inj hlt hnd he)
    refine ⟨htne, ?_, hn, hpos⟩
    rw [hg]
    exact htne

theorem gnc_never_returns_tail_witness :
    sampleQ.m_tail ≠ some 0 ∧ (GetNodeFromCache sampleQ).2.m_tail ≠ some 0 ∧
      [0, 1][0]? = some 0 ∧ 0 < 1 :=
  @gnc_never_returns_tail Nat _ sampleQ [0, 1] 0 1 (by decide) 0 (by decide)


theorem spsc_fifo_conservation_witness :
    (∃ rest,
        (runImpl (construct : TSPSCQueue Nat) [Op.enq 1, Op.deq, Op.enq 2]).2 ++ rest =
          enqValues [Op.enq 1, Op.deq, Op.enq 2]) ∧
    (runImpl (construct : TSPSCQueue Nat)
        ([Op.enq 1, Op.deq, Op.enq 2] ++
          List.replicate ((enqValues [Op.enq 1, Op.deq, Op.enq 2]).length + 0) Op.deq)).2 =
      enqValues [Op.enq 1, Op.deq, Op.enq 2] :=
  spsc_fifo_conservation [Op.enq 1, Op.deq, Op.enq 2] 0

theorem spsc_reachable_invariant_witness :
    ∃ l itc it, l ≠ [] ∧
      Inv (runImpl (construct : TSPSCQueue Nat) [Op.enq 5, Op.deq]).1 l itc it :=
  spsc_reachable_invariant [Op.enq 5, Op.deq]

theorem construct_spec_witness :
    (construct : TSPSCQueue Nat).nodes = [{ m_next := none, m_data := (default : Nat) }] ∧
    (construct : TSPSCQueue Nat).m_tail = some 0 ∧
    (construct : TSPSCQueue Nat).m_head = some 0 ∧
    (construct : TSPSCQueue Nat).m_first = some 0 ∧
    (construct : TSPSCQueue Nat).m_tailCopy = some 0 ∧
    Dequeue (construct : TSPSCQueue Nat) 42 = (false, 42, construct) :=
  construct_spec 42

theorem destruct_releases_exactly_witness :
    (destruct (runImpl (construct : TSPSCQueue Nat) [Op.enq 9, Op.deq]).1).Nodup ∧
    ∀ i, i ∈ destruct (runImpl (construct : TSPSCQueue Nat) [Op.enq 9, Op.deq]).1 ↔
      i < (runImpl (construct : TSPSCQueue Nat) [Op.enq 9, Op.deq]).1.nodes.length :=
  destruct_releases_exactly [Op.enq 9, Op.deq]

end TSPSCQueue
